import Mathlib

/-!
Verification development for the `bibbias` gender-analytics pipeline
(`src/bias.py`).  The Python source is shallowly embedded: strings are
`String`/`List Char`, Python dicts are association lists that preserve
insertion order, Python sets are duplicate-free lists in insertion order,
the Gender-API transport is an oracle `String → Option ApiResponse`, and
the on-disk name cache is passed explicitly.  Regular-expression scans are
embedded as fuel-indexed structural scanners (fuel is always the input
length, which bounds every step of the leftmost non-overlapping search).
-/

namespace Bibbias

/-- Python `\s` / `str.strip` whitespace, restricted to the ASCII range
exercised by the program (space, tab, newline, carriage return, vertical
tab, form feed). -/
def isPySpace (c : Char) : Bool :=
  c = ' ' || c = '\t' || c = '\n' || c = '\r' || c = '\x0b' || c = '\x0c'

/-- Python `\w` word characters, restricted to ASCII: letters, digits and
underscore. -/
def isPyWord (c : Char) : Bool :=
  (97 ≤ c.toNat && c.toNat ≤ 122) || (65 ≤ c.toNat && c.toNat ≤ 90) ||
    (48 ≤ c.toNat && c.toNat ≤ 57) || c = '_'

/-- ASCII lowercasing of one character, modelling `str.lower` on the ASCII
inputs the program handles ('A'..'Z' have codes 65..90, 'a'..'z' are 32
higher). -/
def lowerChar (c : Char) : Char :=
  if h : 65 ≤ c.toNat ∧ c.toNat ≤ 90 then
    Char.ofNatAux (c.toNat + 32) (Or.inl (by omega))
  else c

/-- Python `str.lower` over the characters of a string. -/
def pyLower (l : List Char) : List Char := l.map lowerChar

/-- Python `str.strip()`: drop whitespace from both ends. -/
def pyStrip (l : List Char) : List Char :=
  (l.dropWhile isPySpace).rdropWhile isPySpace

/-- Python `s.split(",")[-1]`: the maximal suffix of `s` that contains no
comma (the whole string when there is no comma). -/
def lastCommaToken (l : List Char) : List Char :=
  (l.reverse.takeWhile (fun c => c ≠ ',')).reverse

/-- One leftmost-match attempt of the regex `\s*\w\.\s*` at the head of the
input (`strip_initial` in `bias.py`).  The three character classes make the
greedy quantifiers deterministic: on success, return the rest of the input
after the matched span. -/
def matchInitial (l : List Char) : Option (List Char) :=
  match l.dropWhile isPySpace with
  | c :: d :: rest =>
    if isPyWord c ∧ d = '.' then some (rest.dropWhile isPySpace) else none
  | _ => none

/-- Fuel-indexed core of `re.sub(r"\s*\w\.\s*", "", s)`: scan left to
right, removing every leftmost non-overlapping match.  With fuel at least
the input length this is exactly the regex substitution; with zero fuel it
returns the remaining input unchanged. -/
def subFuel (f : Nat) (l : List Char) : List Char :=
  match l with
  | [] => []
  | c :: cs =>
    match f with
    | 0 => c :: cs
    | f' + 1 =>
      match matchInitial (c :: cs) with
      | some rest => subFuel f' rest
      | none => c :: subFuel f' cs

/-- The substitution `strip_initial.sub("", s)` from `bias.py`. -/
def subStripInitial (l : List Char) : List Char := subFuel l.length l

/-- Name normalization as performed inline in `find_gender`:
`strip_initial.sub("", raw.strip().split(",")[-1].strip().lower())`. -/
def normalizeName (s : String) : String :=
  ⟨subFuel (pyLower (pyStrip (lastCommaToken (pyStrip s.toList)))).length
    (pyLower (pyStrip (lastCommaToken (pyStrip s.toList))))⟩

/-- Lookup in a Python dict modelled as an insertion-ordered association
list (`d.get(k, None)` / `d[k]`). -/
def dictGet (k : String) : List (String × α) → Option α
  | [] => none
  | (k2, v) :: rest => if k2 = k then some v else dictGet k rest

/-- Assignment `d[k] = v` on a Python dict: replace the value at an
existing key in place, otherwise append the new binding. -/
def dictInsert (k : String) (v : α) : List (String × α) → List (String × α)
  | [] => [(k, v)]
  | (k2, v2) :: rest =>
    if k2 = k then (k2, v) :: rest else (k2, v2) :: dictInsert k v rest

/-- Python `set.add` on a set modelled as a duplicate-free list in
insertion order. -/
def setInsert (x : String) (l : List String) : List String :=
  if x ∈ l then l else l ++ [x]

/-- Fuel-indexed core of Python `str.split(sep)` for a non-empty
separator: cut at each leftmost non-overlapping occurrence of `sep`.
Fuel at least the input length suffices. -/
def splitFuel (sep : List Char) : Nat → List Char → List (List Char)
  | 0, l => [l]
  | f + 1, l =>
    if sep.isPrefixOf l then
      [] :: splitFuel sep f (l.drop sep.length)
    else
      match l with
      | [] => [[]]
      | c :: cs =>
        match splitFuel sep f cs with
        | [] => [[c]]
        | p :: ps => (c :: p) :: ps

/-- Python `s.split(sep)` for a non-empty separator. -/
def pySplit (sep : String) (s : String) : List String :=
  (splitFuel sep.toList s.toList.length s.toList).map (fun l => (⟨l⟩ : String))

/-- One match attempt of `author\s=\s+\{(.*?)\}` (with `re.DOTALL`) at the
head of the input: the literal `author`, one whitespace character, `=`, at
least one whitespace character, `\x7b`, then the lazily captured body up to
the first `\x7d`.  Returns the captured body and the input after the
match. -/
def matchAuthorAt : List Char → Option (List Char × List Char)
  | 'a' :: 'u' :: 't' :: 'h' :: 'o' :: 'r' :: c :: '=' :: rest =>
    if isPySpace c then
      match rest with
      | d :: rest2 =>
        if isPySpace d then
          match rest2.dropWhile isPySpace with
          | '\x7b' :: rest3 =>
            match rest3.dropWhile (fun x => x ≠ '\x7d') with
            | '\x7d' :: after => some (rest3.takeWhile (fun x => x ≠ '\x7d'), after)
            | _ => none
          | _ => none
        else none
      | _ => none
    else none
  | _ => none

/-- One match attempt of `@\w+\{(.*?),` (no `DOTALL`, so the lazy capture
may not cross a newline) at the head of the input: `@`, a non-empty run of
word characters, `\x7b`, then the captured key up to the first comma,
failing if a newline occurs first. -/
def matchBibIdAt : List Char → Option (List Char × List Char)
  | '@' :: rest =>
    match rest.takeWhile isPyWord with
    | [] => none
    | _ :: _ =>
      match rest.dropWhile isPyWord with
      | '\x7b' :: rest2 =>
        match rest2.dropWhile (fun c => c ≠ ',' && c ≠ '\n') with
        | ',' :: after => some (rest2.takeWhile (fun c => c ≠ ',' && c ≠ '\n'), after)
        | _ => none
      | _ => none
  | _ => none

/-- Fuel-indexed `re.findall` driver: at each position try the matcher; on
a match, emit the capture and resume after the consumed span, otherwise
advance one character.  Fuel equal to the input length suffices because
both matchers consume at least one character. -/
def scanFuel (m : List Char → Option (List Char × List Char)) :
    Nat → List Char → List (List Char)
  | 0, _ => []
  | _ + 1, [] => []
  | f + 1, c :: cs =>
    match m (c :: cs) with
    | some (a, rest) => a :: scanFuel m f rest
    | none => scanFuel m f cs

/-- All `author = \x7b...\x7d` field bodies of the bibliography text, with
newlines replaced by spaces (`m.replace("\n", " ")` in `find_gender`). -/
def authorFieldStrings (bibstr : String) : List String :=
  (scanFuel matchAuthorAt bibstr.toList.length bibstr.toList).map
    (fun m => ⟨m.map (fun c => if c = '\n' then ' ' else c)⟩)

/-- All citation keys matched by `@\w+\{(.*?),` over the bibliography
text. -/
def bibIds (bibstr : String) : List String :=
  (scanFuel matchBibIdAt bibstr.toList.length bibstr.toList).map
    (fun m => (⟨m⟩ : String))

/-- The positional pairing `zip(bib_id, author_lists)` in `find_gender`:
the two independently extracted sequences are truncated to the shorter
one. -/
def pairedRecords (bibstr : String) : List (String × String) :=
  (bibIds bibstr).zip (authorFieldStrings bibstr)

/-- The per-record value stored in `data`: `(first name, first gender)`
and `(last name, last gender)`. -/
abbrev Resolved := (String × Option String) × (String × Option String)

/-- Resolve one author field against the cache: split on the literal
`" and"`, normalize the first and last entries, and pair each with its
cached gender (`None` when absent). -/
def resolveAuthors (cached : List (String × String)) (authors : String) :
    Resolved :=
  let authlst := pySplit " and" authors
  let first := normalizeName (authlst.headD "")
  let last := normalizeName (authlst.getLastD "")
  ((first, dictGet first cached), (last, dictGet last cached))

/-- One iteration of the record loop in `find_gender`: store the record's
resolved entry under its citation key and add each `None`-gender name to
the missed set. -/
def findStep (cached : List (String × String))
    (acc : List (String × Resolved) × List String) (p : String × String) :
    List (String × Resolved) × List String :=
  let entry := resolveAuthors cached p.2
  (dictInsert p.1 entry acc.1,
   [entry.1, entry.2].foldl
     (fun ms fn => if fn.2 = none then setInsert fn.1 ms else ms) acc.2)

/-- The core of `find_gender(bibstr, cached)`: build the per-citation-key
`data` dict and the `missed` set of names that resolved to `None`.  The
disk read of the default cache is externalized: the caller passes the
cache contents. -/
def find_gender (bibstr : String) (cached : List (String × String)) :
    List (String × Resolved) × List String :=
  (pairedRecords bibstr).foldl (findStep cached) ([], [])

/-- A successful Gender-API response body: the fields `query_names`
reads. -/
structure ApiResponse where
  gender : String
  accuracy : Int
deriving DecidableEq

/-- The observable outcome of `query_names`: the returned cache, the cache
file contents afterwards, whether the file was rewritten, and the count
announced by the no-credential diagnostic (if printed). -/
structure QueryResult where
  cache : List (String × String)
  store : List (String × String)
  wrote : Bool
  diagnostic : Option Nat
deriving DecidableEq

/-- The misses computed by `query_names`:
`sorted(set(nameset) - set(cached.keys()))`. -/
def missesOf (nameset : List String) (cached : List (String × String)) :
    List String :=
  List.insertionSort (· ≤ ·)
    ((nameset.filter (fun n => (dictGet n cached).isNone)).dedup)

/-- The lookup loop of `query_names`: for each miss in order, ask the API;
on a successful response with accuracy at least 60, record `"F"` for the
female category and `"M"` otherwise; on a failed request, skip the name. -/
def queryLoop (api : String → Option ApiResponse) :
    List String → List (String × String) → List (String × String)
  | [], cached => cached
  | n :: rest, cached =>
    match api n with
    | none => queryLoop api rest cached
    | some r =>
      queryLoop api rest
        (if 60 ≤ r.accuracy then
          dictInsert n (if r.gender = "female" then "F" else "M") cached
        else cached)

/-- The whole of `query_names(nameset)` with its I/O made explicit:
`fileCache` is what loading the cache file returns, `apiKey` the
`GENDER_API_KEY` environment variable, and `api` the remote service.  The
cache file is rewritten only on the path that performs lookups. -/
def query_names (nameset : List String) (fileCache : List (String × String))
    (apiKey : Option String) (api : String → Option ApiResponse) :
    QueryResult :=
  let misses := missesOf nameset fileCache
  if misses = [] then ⟨fileCache, fileCache, false, none⟩
  else
    match apiKey with
    | none => ⟨fileCache, fileCache, false, some misses.length⟩
    | some _ =>
      let cached := queryLoop api misses fileCache
      ⟨cached, cached, true, none⟩

/-- String form of a gender label as interpolated by
`f"{first[1]}{last[1]}"`: Python renders `None` as `"None"`. -/
def genderStr : Option String → String
  | none => "None"
  | some g => g

/-- The initial report dict
`{"".join(c): 0 for c in product(("M", "F", "None"), repeat=2)}`. -/
def initReport : List (String × Nat) :=
  (["M", "F", "None"].map
    (fun a => ["M", "F", "None"].map (fun b => (a ++ b, 0)))).flatten

/-- Increment `retval[k]`, failing (Python `KeyError`) when the key is not
present. -/
def incKey (k : String) : List (String × Nat) → Option (List (String × Nat))
  | [] => none
  | (k2, v) :: rest =>
    if k2 = k then some ((k2, v + 1) :: rest)
    else (fun t => (k2, v) :: t) <$> incKey k rest

/-- `report_gender(data)`: tally each record into the bucket named by the
concatenated first and last labels; `none` models the `KeyError` crash on
a label outside the nine fixed categories. -/
def report_gender (data : List (String × Resolved)) :
    Option (List (String × Nat)) :=
  data.foldl
    (fun acc e => acc.bind (incKey (genderStr e.2.1.2 ++ genderStr e.2.2.2)))
    (some initReport)

/-- A pandas float cell as `compute_gender_stats` produces it: a finite
rational, `NaN` (from `0 / 0`), or `inf` (from `k / 0`, `k > 0`). -/
inductive PFloat where
  | num (q : ℚ)
  | nan
  | inf
deriving DecidableEq

/-- Elementwise division of a count by the row total with pandas zero
semantics. -/
def pdDiv (count total : Nat) : PFloat :=
  if total = 0 then (if count = 0 then .nan else .inf)
  else .num ((count : ℚ) / (total : ℚ))

/-- `compute_gender_stats(df)`: the row total and one `(Category, share)`
row per report column, in column order. -/
def compute_gender_stats (report : List (String × Nat)) :
    List (String × PFloat) :=
  let total := (report.map Prod.snd).sum
  report.map (fun p => (p.1, pdDiv p.2 total))

/-- The resolution part of `main`: a first `find_gender` pass against the
loaded cache; if any name was missed, `query_names` runs and a second pass
uses the cache it returns.  Returns the final `(resolved, missed)` pair
and the cache file contents after the run. -/
def run_main (bibstr : String) (fileCache : List (String × String))
    (apiKey : Option String) (api : String → Option ApiResponse) :
    (List (String × Resolved) × List String) × List (String × String) :=
  let pass1 := find_gender bibstr fileCache
  if pass1.2 = [] then (pass1, fileCache)
  else
    let qr := query_names pass1.2 fileCache apiKey api
    (find_gender bibstr qr.cache, qr.store)

/-- The two-record bibliography of the spec's two-pass convergence
example: `author = \x7bDoe, J. and Roe, A.\x7d` and
`author = \x7bSmith, K.\x7d`. -/
def exampleBib : String :=
  "@article\x7brec1,\n  author = \x7bDoe, J. and Roe, A.\x7d\n\x7d\n@article\x7brec2,\n  author = \x7bSmith, K.\x7d\n\x7d\n"

/-- The pre-populated cache of the two-pass convergence example. -/
def exampleCache : List (String × String) := [("doe", "M"), ("roe", "F")]

/-- The pipeline run of the two-pass convergence example: no API
credential configured, so the remote oracle is never consulted. -/
def exampleRun :
    (List (String × Resolved) × List String) × List (String × String) :=
  run_main exampleBib exampleCache none (fun _ => none)

/-- The category key a record is tallied under. -/
def catOf (e : String × Resolved) : String :=
  genderStr e.2.1.2 ++ genderStr e.2.2.2

/-- A gender label the report loop can encounter without crashing. -/
def validLabel (g : Option String) : Prop :=
  g = some "M" ∨ g = some "F" ∨ g = none

instance (g : Option String) : Decidable (validLabel g) := by
  unfold validLabel
  infer_instance

/-- A bibliography whose two records share the citation key `k`. -/
def dupKeyBib : String :=
  "@article\x7bk,\n  author = \x7bDoe, Jane\x7d\n\x7d\n@article\x7bk,\n  author = \x7bRoe, Alan\x7d\n\x7d\n"

theorem zip_eq_zip_take (l₁ : List α) (l₂ : List β) :
    l₁.zip l₂ = (l₁.take l₂.length).zip (l₂.take l₁.length) := by
  induction l₁ generalizing l₂ with
  | nil => simp
  | cons a t ih =>
    cases l₂ with
    | nil => simp
    | cons b t2 => simpa using ih t2

end Bibbias

namespace Bibbias

/-- C1 counterexample: on the two-record example bibliography with the
cache `[doe ↦ M, roe ↦ F]` and no credential, the code does not resolve
record 1 as (M, F): every author name normalizes to the empty string
(the last comma-separated token of each author is a bare initial, which
`strip_initial` deletes), so the missed set is not `{"smith"}` and the
report's MF count is not 1. -/
theorem two_record_example_refutes :
    (dictGet "rec1" exampleRun.1.1).map (fun e => (e.1.2, e.2.2)) ≠
        some (some "M", some "F") ∧
    "smith" ∉ exampleRun.1.2 ∧
    (report_gender exampleRun.1.1).bind (dictGet "MF") ≠ some 1 := by
  decide

/-- C1 amended: for the two-record example bibliography with cache
`[doe ↦ M, roe ↦ F]` and no credential, every author name normalizes to
`""`, so both records resolve as (None, None), the reported missed set is
`{""}`, the GenderReport has NoneNone = 2 and all other categories 0, the
StatsReport has NoneNone = 1.0 and all other categories 0, and the cache
file is left unchanged. -/
theorem two_record_example_actual :
    exampleRun.1.1 =
      [("rec1", (("", none), ("", none))), ("rec2", (("", none), ("", none)))] ∧
    exampleRun.1.2 = [""] ∧
    report_gender exampleRun.1.1 =
      some [("MM", 0), ("MF", 0), ("MNone", 0), ("FM", 0), ("FF", 0),
            ("FNone", 0), ("NoneM", 0), ("NoneF", 0), ("NoneNone", 2)] ∧
    compute_gender_stats ((report_gender exampleRun.1.1).getD []) =
      [("MM", .num 0), ("MF", .num 0), ("MNone", .num 0), ("FM", .num 0),
       ("FF", .num 0), ("FNone", .num 0), ("NoneM", .num 0),
       ("NoneF", .num 0), ("NoneNone", .num 1)] ∧
    exampleRun.2 = exampleCache := by
  refine ⟨by decide, by decide, by decide, ?_, by decide⟩
  have hrep : (report_gender exampleRun.1.1).getD [] =
      [("MM", 0), ("MF", 0), ("MNone", 0), ("FM", 0), ("FF", 0),
       ("FNone", 0), ("NoneM", 0), ("NoneF", 0), ("NoneNone", 2)] := by decide
  rw [hrep]
  norm_num [compute_gender_stats, pdDiv]

/-- C3: with no API credential configured and a non-empty set of names
missing from the loaded cache, `query_names` returns the loaded cache
unchanged, leaves the cache file untouched, and only emits the diagnostic
announcing how many names could not be mapped.  The embedded function is
total, so no exception can be raised on this path. -/
theorem query_names_no_credential (nameset : List String)
    (fileCache : List (String × String)) (api : String → Option ApiResponse)
    (h : missesOf nameset fileCache ≠ []) :
    query_names nameset fileCache none api =
      ⟨fileCache, fileCache, false, some (missesOf nameset fileCache).length⟩ := by
  unfold query_names
  simp [h]

/-- C3 witness: the no-credential no-op at a concrete input with one
missing name. -/
theorem query_names_no_credential_witness :
    query_names ["ada"] [] none (fun _ => none) = ⟨[], [], false, some 1⟩ :=
  query_names_no_credential ["ada"] [] (fun _ => none) (by decide)

/-- C7: when the nine counts sum to zero, every ratio row of the stats
report is the explicit NaN marker (no arithmetic fault is possible: the
embedded function is total); when the total is nonzero, each row carries
its count divided by the total. -/
theorem compute_gender_stats_spec (report : List (String × Nat)) :
    ((report.map Prod.snd).sum = 0 →
      compute_gender_stats report = report.map (fun p => (p.1, PFloat.nan))) ∧
    ((report.map Prod.snd).sum ≠ 0 →
      compute_gender_stats report =
        report.map (fun p =>
          (p.1, PFloat.num ((p.2 : ℚ) / (((report.map Prod.snd).sum : Nat) : ℚ))))) := by
  constructor
  · intro h
    show report.map _ = report.map _
    refine List.map_congr_left (fun p hp => ?_)
    have hz : p.2 = 0 :=
      List.sum_eq_zero_iff.mp h p.2 (List.mem_map_of_mem Prod.snd hp)
    simp [pdDiv, h, hz]
  · intro h
    show report.map _ = report.map _
    refine List.map_congr_left (fun p hp => ?_)
    simp [pdDiv, h]

/-- C7 witness: a zero-total report yields NaN rows; a total of 4 yields
count-over-total rows. -/
theorem compute_gender_stats_spec_witness :
    compute_gender_stats [("MM", 0)] = [("MM", PFloat.nan)] ∧
    compute_gender_stats [("MM", 2), ("MF", 2)] =
      [("MM", 2), ("MF", 2)].map
        (fun p =>
          (p.1, PFloat.num
            ((p.2 : ℚ) / ((([("MM", 2), ("MF", 2)].map Prod.snd).sum : Nat) : ℚ)))) :=
  ⟨(compute_gender_stats_spec [("MM", 0)]).1 rfl,
   (compute_gender_stats_spec [("MM", 2), ("MF", 2)]).2 (by decide)⟩

theorem dictGet_dictInsert_self (k : String) (v : α) (l : List (String × α)) :
    dictGet k (dictInsert k v l) = some v := by
  induction l with
  | nil => simp [dictInsert, dictGet]
  | cons h t ih =>
    obtain ⟨k2, v2⟩ := h
    by_cases e : k2 = k <;> simp [dictInsert, dictGet, e, ih]

theorem dictGet_dictInsert_ne {k' k : String} (v : α) (l : List (String × α))
    (h : k' ≠ k) : dictGet k' (dictInsert k v l) = dictGet k' l := by
  induction l with
  | nil => simp [dictInsert, dictGet, Ne.symm h]
  | cons hd t ih =>
    obtain ⟨k2, v2⟩ := hd
    simp only [dictInsert]
    split
    · rename_i e
      have hne : ¬k2 = k' := by
        rw [e]
        exact Ne.symm h
      simp only [dictGet, if_neg hne]
    · simp only [dictGet]
      split
      · rfl
      · exact ih

theorem dictInsert_length_of_get_none {k : String} (v : α)
    {l : List (String × α)} (h : dictGet k l = none) :
    (dictInsert k v l).length = l.length + 1 := by
  induction l with
  | nil => rfl
  | cons hd t ih =>
    obtain ⟨k2, v2⟩ := hd
    by_cases e : k2 = k
    · simp [dictGet, e] at h
    · simp only [dictGet, if_neg e] at h
      simp [dictInsert, e, ih h]

theorem queryLoop_get_of_not_mem (api : String → Option ApiResponse)
    {names : List String} {n : String} (c : List (String × String))
    (h : n ∉ names) :
    dictGet n (queryLoop api names c) = dictGet n c := by
  induction names generalizing c with
  | nil => rfl
  | cons m rest ih =>
    simp only [List.mem_cons, not_or] at h
    unfold queryLoop
    cases api m with
    | none => exact ih c h.2
    | some r =>
      rw [ih _ h.2]
      split
      · exact dictGet_dictInsert_ne _ _ h.1
      · rfl

theorem queryLoop_get_processed (api : String → Option ApiResponse)
    {names : List String} {n : String} {r : ApiResponse}
    {c : List (String × String)} (hnodup : names.Nodup) (hn : n ∈ names)
    (hc : dictGet n c = none) (hr : api n = some r) :
    dictGet n (queryLoop api names c) =
      if 60 ≤ r.accuracy then some (if r.gender = "female" then "F" else "M")
      else none := by
  induction names generalizing c with
  | nil => cases hn
  | cons m rest ih =>
    rw [List.nodup_cons] at hnodup
    rcases List.mem_cons.mp hn with he | hm
    · subst he
      unfold queryLoop
      simp only [hr]
      by_cases hacc : 60 ≤ r.accuracy
      · rw [if_pos hacc, if_pos hacc,
          queryLoop_get_of_not_mem api _ hnodup.1, dictGet_dictInsert_self]
      · rw [if_neg hacc, if_neg hacc,
          queryLoop_get_of_not_mem api _ hnodup.1, hc]
    · have hne : n ≠ m := fun e => hnodup.1 (e ▸ hm)
      unfold queryLoop
      cases hap : api m with
      | none => exact ih hnodup.2 hm hc
      | some rm =>
        simp only []
        refine ih hnodup.2 hm ?_
        split
        · rw [dictGet_dictInsert_ne _ _ hne]
          exact hc
        · exact hc

theorem mem_missesOf {n : String} {nameset : List String}
    {cached : List (String × String)} :
    n ∈ missesOf nameset cached ↔ n ∈ nameset ∧ dictGet n cached = none := by
  unfold missesOf
  rw [List.Perm.mem_iff (List.perm_insertionSort _ _), List.mem_dedup,
    List.mem_filter]
  simp [Option.isNone_iff_eq_none]

theorem missesOf_nodup (nameset : List String)
    (cached : List (String × String)) : (missesOf nameset cached).Nodup :=
  (List.perm_insertionSort _ _).symm.nodup
    (List.nodup_dedup (nameset.filter (fun n => (dictGet n cached).isNone)))

/-- C2: in `query_names` with a credential configured, every name missing
from the loaded cache whose lookup succeeds ends with a cache entry
exactly when the reported accuracy is at least 60; the entry is `"F"` for
the female category and `"M"` otherwise, and below the threshold the name
stays absent (eligible for retry). -/
theorem query_names_threshold (nameset : List String)
    (fileCache : List (String × String)) (api : String → Option ApiResponse)
    (k : String) (n : String) (r : ApiResponse)
    (hn : n ∈ missesOf nameset fileCache) (hr : api n = some r) :
    dictGet n (query_names nameset fileCache (some k) api).cache =
      if 60 ≤ r.accuracy then some (if r.gender = "female" then "F" else "M")
      else none := by
  have hne : missesOf nameset fileCache ≠ [] := by
    intro e
    rw [e] at hn
    cases hn
  have hq : (query_names nameset fileCache (some k) api).cache =
      queryLoop api (missesOf nameset fileCache) fileCache := by
    unfold query_names
    simp [hne]
  rw [hq]
  exact queryLoop_get_processed api (missesOf_nodup _ _) hn
    (mem_missesOf.mp hn).2 hr

/-- C2 witness: one missing name answered female with accuracy 90 enters
the cache as `"F"`; answered with accuracy 40 it stays absent. -/
theorem query_names_threshold_witness :
    dictGet "bob" (query_names ["bob"] [] (some "key")
        (fun _ => some ⟨"female", 90⟩)).cache = some "F" ∧
    dictGet "bob" (query_names ["bob"] [] (some "key")
        (fun _ => some ⟨"female", 40⟩)).cache = none :=
  ⟨query_names_threshold ["bob"] [] (fun _ => some ⟨"female", 90⟩) "key" "bob"
      ⟨"female", 90⟩ (by decide) rfl,
   query_names_threshold ["bob"] [] (fun _ => some ⟨"female", 40⟩) "key" "bob"
      ⟨"female", 40⟩ (by decide) rfl⟩

/-- C5: after a `query_names` run that performed lookups (credential
present, at least one miss), every miss answered with accuracy at least 60
is present in the persisted store, every entry of the loaded cache is
still present with its old value (the cache only grows), and the returned
cache is exactly what was persisted, the file having been rewritten before
returning. -/
theorem query_names_cache_monotone (nameset : List String)
    (fileCache : List (String × String)) (api : String → Option ApiResponse)
    (k : String) (hmiss : missesOf nameset fileCache ≠ []) :
    (∀ n r, n ∈ missesOf nameset fileCache → api n = some r →
      60 ≤ r.accuracy →
      dictGet n (query_names nameset fileCache (some k) api).store ≠ none) ∧
    (∀ n v, dictGet n fileCache = some v →
      dictGet n (query_names nameset fileCache (some k) api).store = some v) ∧
    (query_names nameset fileCache (some k) api).store =
      (query_names nameset fileCache (some k) api).cache ∧
    (query_names nameset fileCache (some k) api).wrote = true := by
  have hq : query_names nameset fileCache (some k) api =
      ⟨queryLoop api (missesOf nameset fileCache) fileCache,
       queryLoop api (missesOf nameset fileCache) fileCache, true, none⟩ := by
    unfold query_names
    simp [hmiss]
  rw [hq]
  refine ⟨?_, ?_, rfl, rfl⟩
  · intro n r hn hr hacc
    rw [queryLoop_get_processed api (missesOf_nodup _ _) hn
      (mem_missesOf.mp hn).2 hr]
    simp [hacc]
  · intro n v hv
    have hnm : n ∉ missesOf nameset fileCache := by
      intro hmem
      rw [(mem_missesOf.mp hmem).2] at hv
      cases hv
    rw [queryLoop_get_of_not_mem api _ hnm, hv]

/-- C5 witness: with one prior entry and one miss answered at accuracy 80,
the miss is persisted, the prior entry survives, and the store equals the
returned cache with the file rewritten. -/
theorem query_names_cache_monotone_witness :
    dictGet "bob" (query_names ["bob"] [("al", "M")] (some "key")
        (fun _ => some ⟨"female", 80⟩)).store ≠ none ∧
    dictGet "al" (query_names ["bob"] [("al", "M")] (some "key")
        (fun _ => some ⟨"female", 80⟩)).store = some "M" ∧
    (query_names ["bob"] [("al", "M")] (some "key")
        (fun _ => some ⟨"female", 80⟩)).wrote = true :=
  ⟨(query_names_cache_monotone ["bob"] [("al", "M")]
      (fun _ => some ⟨"female", 80⟩) "key" (by decide)).1 "bob" ⟨"female", 80⟩
      (by decide) rfl (by decide),
   (query_names_cache_monotone ["bob"] [("al", "M")]
      (fun _ => some ⟨"female", 80⟩) "key" (by decide)).2.1 "al" "M" rfl,
   (query_names_cache_monotone ["bob"] [("al", "M")]
      (fun _ => some ⟨"female", 80⟩) "key" (by decide)).2.2.2⟩

theorem incKey_map_fst {k : String} {l l' : List (String × Nat)}
    (h : incKey k l = some l') : l'.map Prod.fst = l.map Prod.fst := by
  induction l generalizing l' with
  | nil => cases h
  | cons hd t ih =>
    obtain ⟨k2, v⟩ := hd
    unfold incKey at h
    split at h
    · cases h
      simp
    · cases hik : incKey k t with
      | none => rw [hik] at h; cases h
      | some t' =>
        rw [hik] at h
        cases h
        simp [ih hik]

theorem incKey_of_mem {k : String} {l : List (String × Nat)}
    (h : k ∈ l.map Prod.fst) :
    ∃ l', incKey k l = some l' ∧ l'.map Prod.fst = l.map Prod.fst ∧
      (l'.map Prod.snd).sum = (l.map Prod.snd).sum + 1 := by
  induction l with
  | nil => cases h
  | cons hd t ih =>
    obtain ⟨k2, v⟩ := hd
    by_cases e : k2 = k
    · refine ⟨(k2, v + 1) :: t, by simp [incKey, e], by simp, ?_⟩
      simp
      omega
    · have hmem : k ∈ t.map Prod.fst := by
        rw [List.map_cons, List.mem_cons] at h
        rcases h with e2 | hmem
        · exact absurd e2.symm e
        · exact hmem
      rcases ih hmem with ⟨t', h1, h2, h3⟩
      refine ⟨(k2, v) :: t', by simp [incKey, e, h1], by simp [h2], ?_⟩
      simp [h3]
      omega

theorem report_fold (data : List (String × Resolved)) :
    ∀ acc : List (String × Nat),
      (∀ e ∈ data, catOf e ∈ acc.map Prod.fst) →
      ∃ r, data.foldl (fun a e => a.bind (incKey (catOf e))) (some acc) =
          some r ∧
        r.map Prod.fst = acc.map Prod.fst ∧
        (r.map Prod.snd).sum = (acc.map Prod.snd).sum + data.length := by
  induction data with
  | nil =>
    intro acc _
    exact ⟨acc, rfl, rfl, by simp⟩
  | cons e rest ih =>
    intro acc h
    rcases incKey_of_mem (h e (by simp)) with ⟨acc', h1, h2, h3⟩
    rcases ih acc' (fun e2 he2 => h2 ▸ h e2 (List.mem_cons_of_mem _ he2)) with
      ⟨r, hr1, hr2, hr3⟩
    refine ⟨r, ?_, h2 ▸ hr2, ?_⟩
    · rw [List.foldl_cons, Option.some_bind, h1]
      exact hr1
    · rw [hr3, h3, List.length_cons]
      omega

theorem report_gender_eq_fold (data : List (String × Resolved)) :
    report_gender data =
      data.foldl (fun a e => a.bind (incKey (catOf e))) (some initReport) :=
  rfl

/-- C4: when every gender label of the resolved records is `"M"`, `"F"` or
`None`, `report_gender` succeeds with a report over exactly the nine
first-by-last categories, and its counts sum to the number of resolved
records. -/
theorem report_gender_total (data : List (String × Resolved))
    (h : ∀ e ∈ data, validLabel e.2.1.2 ∧ validLabel e.2.2.2) :
    ∃ r, report_gender data = some r ∧
      r.map Prod.fst =
        ["MM", "MF", "MNone", "FM", "FF", "FNone", "NoneM", "NoneF",
         "NoneNone"] ∧
      (r.map Prod.snd).sum = data.length := by
  have hcat : ∀ e ∈ data, catOf e ∈ initReport.map Prod.fst := by
    intro e he
    rcases (h e he).1 with h1 | h1 | h1 <;> rcases (h e he).2 with h2 | h2 | h2 <;>
      simp only [catOf, h1, h2] <;> decide
  rcases report_fold data initReport hcat with ⟨r, h1, h2, h3⟩
  refine ⟨r, (report_gender_eq_fold data).trans h1, by rw [h2]; decide, ?_⟩
  rw [h3, show (initReport.map Prod.snd).sum = 0 from by decide, Nat.zero_add]

/-- C4 witness: a two-record resolved set with labels in the valid range
tallies to total 2. -/
theorem report_gender_total_witness :
    ∃ r, report_gender
        [("r1", (("ada", some "F"), ("bo", none))),
         ("r2", (("cy", some "M"), ("cy", some "M")))] = some r ∧
      r.map Prod.fst =
        ["MM", "MF", "MNone", "FM", "FF", "FNone", "NoneM", "NoneF",
         "NoneNone"] ∧
      (r.map Prod.snd).sum = 2 :=
  report_gender_total
    [("r1", (("ada", some "F"), ("bo", none))),
     ("r2", (("cy", some "M"), ("cy", some "M")))] (by decide)

theorem report_foldl_fst (data : List (String × Resolved)) :
    ∀ (o : Option (List (String × Nat))) (r : List (String × Nat)),
      data.foldl (fun a e => a.bind (incKey (catOf e))) o = some r →
      ∃ acc, o = some acc ∧ r.map Prod.fst = acc.map Prod.fst := by
  induction data with
  | nil =>
    intro o r h
    exact ⟨r, h, rfl⟩
  | cons e rest ih =>
    intro o r h
    rw [List.foldl_cons] at h
    rcases ih _ r h with ⟨acc', ho, hfst⟩
    cases o with
    | none => cases ho
    | some acc =>
      rw [Option.some_bind] at ho
      exact ⟨acc, rfl, hfst.trans (incKey_map_fst ho)⟩

/-- C8: any report `report_gender` returns lists exactly the nine
categories in the product order M,F,None by M,F,None — MM, MF, MNone, FM,
FF, FNone, NoneM, NoneF, NoneNone — and the stats rows derived from it
keep that order. -/
theorem report_categories_fixed (data : List (String × Resolved))
    (r : List (String × Nat)) (h : report_gender data = some r) :
    r.map Prod.fst =
      ["MM", "MF", "MNone", "FM", "FF", "FNone", "NoneM", "NoneF",
       "NoneNone"] ∧
    (compute_gender_stats r).map Prod.fst =
      ["MM", "MF", "MNone", "FM", "FF", "FNone", "NoneM", "NoneF",
       "NoneNone"] := by
  rw [report_gender_eq_fold] at h
  rcases report_foldl_fst data _ r h with ⟨acc, hacc, hfst⟩
  have hini : acc = initReport := by
    cases hacc
    rfl
  have h1 : r.map Prod.fst =
      ["MM", "MF", "MNone", "FM", "FF", "FNone", "NoneM", "NoneF",
       "NoneNone"] := by
    rw [hfst, hini]
    decide
  refine ⟨h1, ?_⟩
  rw [compute_gender_stats, List.map_map]
  exact h1

/-- C8 witness: the empty record set yields the untouched initial report,
whose key sequence (and that of its stats rows) is the fixed one. -/
theorem report_categories_fixed_witness :
    initReport.map Prod.fst =
      ["MM", "MF", "MNone", "FM", "FF", "FNone", "NoneM", "NoneF",
       "NoneNone"] ∧
    (compute_gender_stats initReport).map Prod.fst =
      ["MM", "MF", "MNone", "FM", "FF", "FNone", "NoneM", "NoneF",
       "NoneNone"] :=
  report_categories_fixed [] initReport rfl

theorem findStep_fst_length (cached : List (String × String))
    (pairs : List (String × String)) :
    ∀ acc : List (String × Resolved) × List String,
      (pairs.map Prod.fst).Nodup →
      (∀ p ∈ pairs, dictGet p.1 acc.1 = none) →
      ((pairs.foldl (findStep cached) acc).1).length =
        acc.1.length + pairs.length := by
  induction pairs with
  | nil =>
    intro acc _ _
    simp
  | cons p rest ih =>
    intro acc hnodup hfresh
    rw [List.map_cons, List.nodup_cons] at hnodup
    rw [List.foldl_cons]
    have hstep : ((findStep cached acc p).1).length = acc.1.length + 1 :=
      dictInsert_length_of_get_none _ (hfresh p (List.mem_cons_self _ _))
    have hrec := ih (findStep cached acc p) hnodup.2 ?_
    · rw [hrec, hstep, List.length_cons]
      omega
    · intro q hq
      have hq1 : q.1 ≠ p.1 := by
        intro e
        exact hnodup.1 (e ▸ List.mem_map_of_mem Prod.fst hq)
      show dictGet q.1 (dictInsert p.1 _ acc.1) = none
      rw [dictGet_dictInsert_ne _ _ hq1]
      exact hfresh q (List.mem_cons_of_mem _ hq)

/-- C9 counterexample: two extracted records sharing a citation key are
collapsed into a single entry of the final mapping (the dict assignment
overwrites), so the mapping does not have one entry per paired record. -/
theorem resolved_count_duplicate_keys :
    (pairedRecords dupKeyBib).length = 2 ∧
    (find_gender dupKeyBib []).1.length = 1 ∧
    (find_gender dupKeyBib []).1.length ≠ (pairedRecords dupKeyBib).length := by
  decide

/-- C9 amended: when the paired records carry pairwise distinct citation
keys, resolution produces exactly one entry of the final mapping per
paired (citation key, author field) record. -/
theorem resolved_count_nodup (bibstr : String)
    (cached : List (String × String))
    (h : ((pairedRecords bibstr).map Prod.fst).Nodup) :
    (find_gender bibstr cached).1.length = (pairedRecords bibstr).length := by
  unfold find_gender
  rw [findStep_fst_length cached _ ([], []) h (fun p _ => rfl)]
  simp

/-- C9 witness: the two-record example bibliography has distinct keys and
its mapping has one entry per record. -/
theorem resolved_count_nodup_witness :
    (find_gender exampleBib []).1.length = (pairedRecords exampleBib).length :=
  resolved_count_nodup exampleBib [] (by decide)

theorem char_ne_of_toNat_ne {a b : Char} (h : a.toNat ≠ b.toNat) : a ≠ b :=
  fun e => h (congrArg Char.toNat e)

theorem isPySpace_eq_false {c : Char} (h : 33 ≤ c.toNat) :
    isPySpace c = false := by
  have h32 : c ≠ ' ' := char_ne_of_toNat_ne (by change _ ≠ 32; omega)
  have h9 : c ≠ '\t' := char_ne_of_toNat_ne (by change _ ≠ 9; omega)
  have h10 : c ≠ '\n' := char_ne_of_toNat_ne (by change _ ≠ 10; omega)
  have h13 : c ≠ '\r' := char_ne_of_toNat_ne (by change _ ≠ 13; omega)
  have h11 : c ≠ '\x0b' := char_ne_of_toNat_ne (by change _ ≠ 11; omega)
  have h12 : c ≠ '\x0c' := char_ne_of_toNat_ne (by change _ ≠ 12; omega)
  simp [isPySpace, h32, h9, h10, h13, h11, h12]

theorem lowerChar_toNat_of_upper {c : Char}
    (h : 65 ≤ c.toNat ∧ c.toNat ≤ 90) :
    (lowerChar c).toNat = c.toNat + 32 := by
  unfold lowerChar
  rw [dif_pos h]
  rfl

theorem lowerChar_of_not_upper {c : Char}
    (h : ¬(65 ≤ c.toNat ∧ c.toNat ≤ 90)) : lowerChar c = c := by
  unfold lowerChar
  rw [dif_neg h]

theorem lowerChar_idem (c : Char) : lowerChar (lowerChar c) = lowerChar c := by
  by_cases h : 65 ≤ c.toNat ∧ c.toNat ≤ 90
  · have ht := lowerChar_toNat_of_upper h
    exact lowerChar_of_not_upper (by omega)
  · rw [lowerChar_of_not_upper h]
    exact lowerChar_of_not_upper h

theorem isPySpace_lowerChar (c : Char) :
    isPySpace (lowerChar c) = isPySpace c := by
  by_cases h : 65 ≤ c.toNat ∧ c.toNat ≤ 90
  · have ht := lowerChar_toNat_of_upper h
    rw [isPySpace_eq_false (by omega), isPySpace_eq_false (by omega)]
  · rw [lowerChar_of_not_upper h]

theorem lowerChar_eq_comma {c : Char} (h : lowerChar c = ',') : c = ',' := by
  by_cases hc : 65 ≤ c.toNat ∧ c.toNat ≤ 90
  · exfalso
    have ht := lowerChar_toNat_of_upper hc
    rw [h] at ht
    have h44 : (44 : Nat) = c.toNat + 32 := ht
    omega
  · rwa [lowerChar_of_not_upper hc] at h

theorem head?_dropWhile_false (p : α → Bool) (l : List α) :
    ∀ c ∈ (l.dropWhile p).head?, p c = false := by
  induction l with
  | nil => intro c h; cases h
  | cons a t ih =>
    intro c h
    rw [List.dropWhile_cons] at h
    split at h
    · exact ih c h
    · rename_i hpa
      rw [List.head?_cons, Option.mem_def, Option.some_inj] at h
      subst h
      exact Bool.not_eq_true _ ▸ hpa

theorem dropWhile_eq_self_of_head (p : α → Bool) (l : List α)
    (h : ∀ c ∈ l.head?, p c = false) : l.dropWhile p = l := by
  cases l with
  | nil => rfl
  | cons a t =>
    rw [List.dropWhile_cons, if_neg]
    rw [h a (by rw [List.head?_cons]; rfl)]
    simp

theorem rdropWhile_eq_self_of_getLast (p : α → Bool) (l : List α)
    (h : ∀ c ∈ l.getLast?, p c = false) : l.rdropWhile p = l := by
  rw [List.rdropWhile, dropWhile_eq_self_of_head p l.reverse ?_,
    List.reverse_reverse]
  intro c hc
  rw [List.head?_reverse] at hc
  exact h c hc

theorem pyStrip_sublist (l : List Char) : List.Sublist (pyStrip l) l :=
  ((List.rdropWhile_prefix _ _).sublist).trans
    ((List.dropWhile_suffix _).sublist)

theorem pyStrip_head? (l : List Char) :
    ∀ c ∈ (pyStrip l).head?, isPySpace c = false := by
  intro c hc
  unfold pyStrip at hc
  rcases List.rdropWhile_prefix (l := (l.dropWhile isPySpace))
      (p := isPySpace) with ⟨t, ht⟩
  have hne : (l.dropWhile isPySpace).rdropWhile isPySpace ≠ [] := by
    intro e
    rw [e] at hc
    cases hc
  have hd : (l.dropWhile isPySpace).head? = some c := by
    rw [← ht, List.head?_append_of_ne_nil _ hne]
    exact hc
  exact head?_dropWhile_false isPySpace l c hd

theorem pyStrip_getLast? (l : List Char) :
    ∀ c ∈ (pyStrip l).getLast?, isPySpace c = false := by
  intro c hc
  unfold pyStrip at hc
  have hne : (l.dropWhile isPySpace).rdropWhile isPySpace ≠ [] := by
    intro e
    rw [e] at hc
    cases hc
  have := List.rdropWhile_last_not (p := isPySpace)
    (l := l.dropWhile isPySpace) hne
  rw [List.getLast?_eq_getLast _ hne, Option.mem_def, Option.some_inj] at hc
  subst hc
  exact Bool.not_eq_true _ ▸ this

theorem pyStrip_eq_self (l : List Char)
    (hh : ∀ c ∈ l.head?, isPySpace c = false)
    (hl : ∀ c ∈ l.getLast?, isPySpace c = false) : pyStrip l = l := by
  unfold pyStrip
  rw [dropWhile_eq_self_of_head _ _ hh, rdropWhile_eq_self_of_getLast _ _ hl]

theorem lastCommaToken_not_mem (l : List Char) : ',' ∉ lastCommaToken l := by
  intro h
  unfold lastCommaToken at h
  rw [List.mem_reverse] at h
  have := List.mem_takeWhile_imp h
  simp at this

theorem lastCommaToken_eq_self (l : List Char) (h : ∀ c ∈ l, c ≠ ',') :
    lastCommaToken l = l := by
  unfold lastCommaToken
  rw [List.takeWhile_eq_self_iff.mpr, List.reverse_reverse]
  intro x hx
  simpa using h x (List.mem_reverse.mp hx)

theorem pyLower_eq_self (l : List Char) (h : ∀ c ∈ l, lowerChar c = c) :
    pyLower l = l := by
  unfold pyLower
  have := List.map_congr_left h
  simpa using this

theorem mem_pyLower_fixed {c : Char} {l : List Char} (h : c ∈ pyLower l) :
    lowerChar c = c := by
  unfold pyLower at h
  rcases List.mem_map.mp h with ⟨y, _, hy⟩
  rw [← hy]
  exact lowerChar_idem y

theorem matchInitial_eq_nil {l : List Char}
    (hd : l.dropWhile isPySpace = []) : matchInitial l = none := by
  unfold matchInitial
  rw [hd]

theorem matchInitial_eq_single {l : List Char} {c : Char}
    (hd : l.dropWhile isPySpace = [c]) : matchInitial l = none := by
  unfold matchInitial
  rw [hd]

theorem matchInitial_eq_cons2 {l : List Char} {c d : Char} {rest : List Char}
    (hd : l.dropWhile isPySpace = c :: d :: rest) :
    matchInitial l =
      if isPyWord c ∧ d = '.' then some (rest.dropWhile isPySpace)
      else none := by
  unfold matchInitial
  rw [hd]

theorem matchInitial_cases {l r : List Char} (h : matchInitial l = some r) :
    ∃ c d rest, l.dropWhile isPySpace = c :: d :: rest ∧
      isPyWord c = true ∧ d = '.' ∧ r = rest.dropWhile isPySpace := by
  cases hd : l.dropWhile isPySpace with
  | nil =>
    rw [matchInitial_eq_nil hd] at h
    cases h
  | cons c t =>
    cases t with
    | nil =>
      rw [matchInitial_eq_single hd] at h
      cases h
    | cons d rest =>
      rw [matchInitial_eq_cons2 hd] at h
      split at h
      · rename_i hcond
        rw [Option.some_inj] at h
        exact ⟨c, d, rest, rfl, hcond.1, hcond.2, h.symm⟩
      · cases h

theorem matchInitial_suffix {l r : List Char} (h : matchInitial l = some r) :
    r <:+ l := by
  rcases matchInitial_cases h with ⟨c, d, rest, hd, -, -, hr⟩
  have h2 : rest <:+ l := by
    have hs : rest <:+ c :: d :: rest := ⟨[c, d], rfl⟩
    have hs2 : c :: d :: rest <:+ l := by
      rw [← hd]
      exact List.dropWhile_suffix _
    exact hs.trans hs2
  rw [hr]
  exact (List.dropWhile_suffix _).trans h2

theorem matchInitial_mem_dot {l r : List Char}
    (h : matchInitial l = some r) : '.' ∈ l := by
  rcases matchInitial_cases h with ⟨c, d, rest, hd, -, hdot, -⟩
  subst hdot
  have hmem : '.' ∈ l.dropWhile isPySpace := by
    rw [hd]
    simp
  exact (List.dropWhile_suffix isPySpace).sublist.subset hmem

theorem matchInitial_cons_space {c : Char} (cs : List Char)
    (h : isPySpace c = true) :
    matchInitial (c :: cs) = matchInitial cs := by
  unfold matchInitial
  rw [List.dropWhile_cons, if_pos h]

theorem matchInitial_head? {l r : List Char} (h : matchInitial l = some r) :
    ∀ c ∈ r.head?, isPySpace c = false := by
  rcases matchInitial_cases h with ⟨c, d, rest, -, -, -, hr⟩
  rw [hr]
  exact head?_dropWhile_false isPySpace rest

theorem subFuel_nil (f : Nat) : subFuel f [] = [] := by
  unfold subFuel
  rfl

theorem subFuel_sublist : ∀ (f : Nat) (l : List Char), List.Sublist (subFuel f l) l
  | f, [] => by
    rw [subFuel_nil f]
  | 0, _ :: _ => List.Sublist.refl _
  | f + 1, c :: cs => by
    rw [show subFuel (f + 1) (c :: cs) =
        (match matchInitial (c :: cs) with
         | some rest => subFuel f rest
         | none => c :: subFuel f cs) from rfl]
    cases hm : matchInitial (c :: cs) with
    | some rest =>
      exact (subFuel_sublist f rest).trans (matchInitial_suffix hm).sublist
    | none => exact (subFuel_sublist f cs).cons₂ c

theorem matchInitial_of_subFuel_nil :
    ∀ (f : Nat) (d : Char) (ds : List Char), subFuel f (d :: ds) = [] →
      ∃ r, matchInitial (d :: ds) = some r
  | 0, d, ds, h => absurd h (List.cons_ne_nil d ds)
  | f + 1, d, ds, h => by
    rw [show subFuel (f + 1) (d :: ds) =
        (match matchInitial (d :: ds) with
         | some rest => subFuel f rest
         | none => d :: subFuel f ds) from rfl] at h
    cases hm : matchInitial (d :: ds) with
    | some r => exact ⟨r, rfl⟩
    | none =>
      rw [hm] at h
      exact absurd h (List.cons_ne_nil _ _)

theorem subFuel_head : ∀ (f : Nat) (l : List Char),
    (∀ c ∈ l.head?, isPySpace c = false) →
    ∀ c ∈ (subFuel f l).head?, isPySpace c = false
  | f, [], _ => by
    intro c hc
    rw [subFuel_nil f] at hc
    simp at hc
  | 0, _ :: _, h => h
  | f + 1, a :: t, h => by
    rw [show subFuel (f + 1) (a :: t) =
        (match matchInitial (a :: t) with
         | some rest => subFuel f rest
         | none => a :: subFuel f t) from rfl]
    cases hm : matchInitial (a :: t) with
    | some rest => exact subFuel_head f rest (matchInitial_head? hm)
    | none =>
      show ∀ c ∈ (a :: subFuel f t).head?, isPySpace c = false
      intro c hc
      rw [List.head?_cons, Option.mem_def, Option.some_inj] at hc
      subst hc
      exact h a rfl

theorem subFuel_getLast : ∀ (f : Nat) (l : List Char),
    (∀ c ∈ l.getLast?, isPySpace c = false) →
    ∀ c ∈ (subFuel f l).getLast?, isPySpace c = false
  | f, [], _ => by
    intro c hc
    rw [subFuel_nil f] at hc
    simp at hc
  | 0, _ :: _, h => h
  | f + 1, a :: t, h => by
    rw [show subFuel (f + 1) (a :: t) =
        (match matchInitial (a :: t) with
         | some rest => subFuel f rest
         | none => a :: subFuel f t) from rfl]
    cases hm : matchInitial (a :: t) with
    | some rest =>
      show ∀ c ∈ (subFuel f rest).getLast?, isPySpace c = false
      refine subFuel_getLast f rest ?_
      intro c hc
      refine h c ?_
      rcases matchInitial_suffix hm with ⟨pre, hpre⟩
      rw [Option.mem_def] at hc ⊢
      rw [← hpre, List.getLast?_append_of_ne_nil _ ?hne]
      · exact hc
      case hne =>
        intro e
        rw [e] at hc
        cases hc
    | none =>
      show ∀ c ∈ (a :: subFuel f t).getLast?, isPySpace c = false
      cases t with
      | nil =>
        intro c hc
        rw [subFuel_nil f] at hc
        simp only [List.getLast?_singleton, Option.mem_def,
          Option.some_inj] at hc
        subst hc
        exact h a (by simp)
      | cons d ds =>
        cases hsub : subFuel f (d :: ds) with
        | nil =>
          intro c hc
          rcases matchInitial_of_subFuel_nil f d ds hsub with ⟨r, hr⟩
          by_cases hsp : isPySpace a = true
          · exfalso
            rw [matchInitial_cons_space (d :: ds) hsp, hr] at hm
            cases hm
          · simp only [List.getLast?_singleton, Option.mem_def,
              Option.some_inj] at hc
            subst hc
            simpa using hsp
        | cons s0 ss =>
          intro c hc
          rw [Option.mem_def, show a :: s0 :: ss = [a] ++ s0 :: ss from rfl,
            List.getLast?_append_of_ne_nil _ (by simp)] at hc
          refine subFuel_getLast f (d :: ds) ?_ c ?_
          · intro c2 hc2
            refine h c2 ?_
            rw [Option.mem_def] at hc2 ⊢
            rw [show a :: d :: ds = [a] ++ d :: ds from rfl,
              List.getLast?_append_of_ne_nil _ (by simp)]
            exact hc2
          · rw [Option.mem_def, hsub]
            exact hc

theorem subFuel_no_dot : ∀ (f : Nat) (l : List Char), '.' ∉ l →
    subFuel f l = l
  | f, [], _ => subFuel_nil f
  | 0, _ :: _, _ => rfl
  | f + 1, a :: t, h => by
    rw [show subFuel (f + 1) (a :: t) =
        (match matchInitial (a :: t) with
         | some rest => subFuel f rest
         | none => a :: subFuel f t) from rfl]
    cases hm : matchInitial (a :: t) with
    | some rest => exact absurd (matchInitial_mem_dot hm) h
    | none =>
      show a :: subFuel f t = a :: t
      rw [subFuel_no_dot f t (fun hd => h (List.mem_cons_of_mem _ hd))]


/-- C6 counterexample: normalization is not idempotent.  For the raw name
`"xy.."`, one normalization removes the initial pattern `y.` and leaves
`"x."`, and a second normalization removes the newly created `x.`,
yielding `""`. -/
theorem normalize_not_idempotent :
    normalizeName (normalizeName "xy..") ≠ normalizeName "xy.." ∧
    normalizeName "xy.." = "x." ∧ normalizeName (normalizeName "xy..") = "" := by
  decide

/-- C6 amended: normalization is idempotent on every raw name whose
normalization contains no period; in general, removing all initial
patterns can create a new one (see the counterexample), and only then can
a second normalization differ. -/
theorem normalize_idem_no_dot (s : String)
    (h : '.' ∉ (normalizeName s).toList) :
    normalizeName (normalizeName s) = normalizeName s := by
  have key : ∀ u : List Char, ',' ∉ u → '.' ∉ u →
      (∀ c ∈ u.head?, isPySpace c = false) →
      (∀ c ∈ u.getLast?, isPySpace c = false) →
      (∀ c ∈ u, lowerChar c = c) →
      normalizeName ⟨u⟩ = ⟨u⟩ := by
    intro u hc hd hh hl hlow
    show (⟨subFuel (pyLower (pyStrip (lastCommaToken (pyStrip u)))).length
      (pyLower (pyStrip (lastCommaToken (pyStrip u))))⟩ : String) = ⟨u⟩
    rw [pyStrip_eq_self u hh hl,
      lastCommaToken_eq_self u (fun c hcu e => hc (e ▸ hcu)),
      pyStrip_eq_self u hh hl, pyLower_eq_self u hlow,
      subFuel_no_dot u.length u hd]
  have hu : (normalizeName s).toList =
      subFuel (pyLower (pyStrip (lastCommaToken (pyStrip s.toList)))).length
        (pyLower (pyStrip (lastCommaToken (pyStrip s.toList)))) := rfl
  have hsubv : ∀ c, c ∈ (normalizeName s).toList →
      c ∈ pyLower (pyStrip (lastCommaToken (pyStrip s.toList))) := by
    intro c hcu
    rw [hu] at hcu
    exact (subFuel_sublist _ _).subset hcu
  have hcomma : ',' ∉ (normalizeName s).toList := by
    intro hmem
    have h1 := hsubv _ hmem
    have h2 := mem_pyLower_fixed h1
    rcases List.mem_map.mp h1 with ⟨y, hy, hye⟩
    have hy' : y = ',' := lowerChar_eq_comma hye
    subst hy'
    have h3 : ',' ∈ lastCommaToken (pyStrip s.toList) :=
      (pyStrip_sublist _).subset hy
    exact lastCommaToken_not_mem _ h3
  have hhead : ∀ c ∈ (normalizeName s).toList.head?, isPySpace c = false := by
    rw [hu]
    refine subFuel_head _ _ ?_
    intro c hc
    unfold pyLower at hc
    rw [List.head?_map] at hc
    rcases Option.map_eq_some'.mp hc with ⟨y, hy, hye⟩
    rw [← hye, isPySpace_lowerChar]
    exact pyStrip_head? _ y hy
  have hlast : ∀ c ∈ (normalizeName s).toList.getLast?, isPySpace c = false := by
    rw [hu]
    refine subFuel_getLast _ _ ?_
    intro c hc
    unfold pyLower at hc
    rw [List.getLast?_map] at hc
    rcases Option.map_eq_some'.mp hc with ⟨y, hy, hye⟩
    rw [← hye, isPySpace_lowerChar]
    exact pyStrip_getLast? _ y hy
  have hlow : ∀ c ∈ (normalizeName s).toList, lowerChar c = c := by
    intro c hcu
    exact mem_pyLower_fixed (hsubv c hcu)
  exact key (normalizeName s).toList hcomma h hhead hlast hlow

/-- C6 witness: a name whose normalization carries no period, normalized
twice. -/
theorem normalize_idem_no_dot_witness :
    normalizeName (normalizeName "Doe, John") = normalizeName "Doe, John" :=
  normalize_idem_no_dot "Doe, John" (by decide)

/-- C10: the records processed by `find_gender` are the positional zip of
the independently extracted citation keys and author fields: their number
is the minimum of the two counts, and the trailing unmatched items of the
longer sequence are truncated away without being paired. -/
theorem paired_records_min (bibstr : String) :
    (pairedRecords bibstr).length =
      min (bibIds bibstr).length (authorFieldStrings bibstr).length ∧
    pairedRecords bibstr =
      ((bibIds bibstr).take (authorFieldStrings bibstr).length).zip
        ((authorFieldStrings bibstr).take (bibIds bibstr).length) :=
  ⟨List.length_zip .., zip_eq_zip_take _ _⟩

end Bibbias
